import Mathlib

/-
Verification development for the gitai repository (gitai.py, git_ai_commit.py,
ollama_backend.py). Python strings are modeled as lists of characters; the
line-oriented string operations used by the source (str.splitlines, "\n".join,
str.strip, str.lower, str.startswith) are modeled over the ASCII fragment that
the source manipulates, with "\n" as the line separator.
-/

namespace Gitai

instance {e a : Type} [DecidableEq e] [DecidableEq a] : DecidableEq (Except e a) := fun x y =>
  match x, y with
  | Except.ok u, Except.ok v => decidable_of_iff (u = v) (by simp)
  | Except.error u, Except.error v => decidable_of_iff (u = v) (by simp)
  | Except.ok _, Except.error _ => isFalse (by simp)
  | Except.error _, Except.ok _ => isFalse (by simp)

/-- Python whitespace characters (ASCII fragment relevant to the source):
space, tab, newline, carriage return, vertical tab, form feed. -/
def pyws (c : Char) : Bool :=
  c == ' ' || c == '\t' || c == '\n' || c == '\r' || c == '\x0b' || c == '\x0c'

/-- Python str.lstrip with no argument: drop leading whitespace. -/
def lstrip (s : List Char) : List Char := s.dropWhile pyws

/-- Python str.rstrip with no argument: drop trailing whitespace. -/
def rstrip (s : List Char) : List Char := (s.reverse.dropWhile pyws).reverse

/-- Python str.strip with no argument: drop whitespace at both ends. -/
def strip (s : List Char) : List Char := lstrip (rstrip s)

/-- Python str.lower (ASCII fragment). -/
def lower (s : List Char) : List Char := s.map Char.toLower

/-- A line is blank when stripping it leaves nothing, mirroring the Python
truthiness test `if ln.strip()`. -/
def isBlank (l : List Char) : Bool := strip l == []

/-- Python str.splitlines restricted to "\n" separators: a trailing newline
does not open a final empty line, and the empty string has no lines. -/
def splitlines : List Char → List (List Char)
  | [] => []
  | c :: cs =>
    if c = '\n' then [] :: splitlines cs
    else
      match splitlines cs with
      | [] => [[c]]
      | l :: ls => (c :: l) :: ls

/-- Python "\n".join. -/
def joinlines : List (List Char) → List Char
  | [] => []
  | l :: ls =>
    match ls with
    | [] => l
    | _ :: _ => l ++ '\n' :: joinlines ls

/-- Decimal digit characters, as produced when formatting an integer. -/
def digitChar : Nat → Char
  | 0 => '0' | 1 => '1' | 2 => '2' | 3 => '3' | 4 => '4'
  | 5 => '5' | 6 => '6' | 7 => '7' | 8 => '8' | 9 => '9'
  | _ => '*'

/-- Fuel-indexed decimal formatting, structural so the kernel can evaluate
it; the fuel in `natChars` always suffices. -/
def natCharsAux : Nat → Nat → List Char
  | 0, _ => []
  | fuel + 1, n =>
    if n < 10 then [digitChar n] else natCharsAux fuel (n / 10) ++ [digitChar (n % 10)]

/-- The decimal representation of a natural number, as Python str(n). -/
def natChars (n : Nat) : List Char := natCharsAux (n + 1) n

/-- Second line of the two-line marker appended by truncate_diff:
f"[... truncated {omitted} diff lines ...]". -/
def truncMarker (omitted : Nat) : List Char :=
  ("[... truncated ").toList ++ natChars omitted ++ (" diff lines ...]").toList

/-- gitai.py truncate_diff: keep the first maxDiffLines lines verbatim; if
lines were dropped, append an empty line and the truncation marker. Returns
(text, truncated, total, kept). The module-level MAX_DIFF_LINES constant is
taken as a parameter. -/
def truncate_diff (maxDiffLines : Nat) (diff_text : List Char) :
    List Char × Bool × Nat × Nat :=
  let lines := splitlines diff_text
  let total := lines.length
  if total ≤ maxDiffLines then (diff_text, false, total, total)
  else
    let kept := lines.take maxDiffLines ++ [[], truncMarker (total - maxDiffLines)]
    (joinlines kept, true, total, maxDiffLines)

/-- One-line marker appended by simplify_diff_for_local:
f"[... truncated after {max_changed_lines} changed lines ...]". -/
def localMarker (maxChanged : Nat) : List Char :=
  ("[... truncated after ").toList ++ natChars maxChanged ++ (" changed lines ...]").toList

/-- The for-loop body of gitai.py simplify_diff_for_local, with the running
`changed` counter made explicit; the break is modeled by returning the final
three appended lines without recursing. -/
def simplifyLoop (maxChanged : Nat) : List (List Char) → Nat → List (List Char)
  | [], _ => []
  | line :: rest, changed =>
    if List.isPrefixOf (("diff --git ").toList) line then
      line :: simplifyLoop maxChanged rest changed
    else if List.isPrefixOf (("index ").toList) line
        || List.isPrefixOf (("--- ").toList) line
        || List.isPrefixOf (("+++ ").toList) line then
      line :: simplifyLoop maxChanged rest changed
    else if List.isPrefixOf (("@@").toList) line then
      line :: simplifyLoop maxChanged rest changed
    else if (List.isPrefixOf (['+']) line || List.isPrefixOf (['-']) line)
        && !(List.isPrefixOf (("+++").toList) line || List.isPrefixOf (("---").toList) line) then
      if changed + 1 ≥ maxChanged then
        [line, [], localMarker maxChanged]
      else
        line :: simplifyLoop maxChanged rest (changed + 1)
    else
      simplifyLoop maxChanged rest changed

/-- gitai.py simplify_diff_for_local: keep file headers, hunk headers and a
bounded number of changed lines, then join with newlines. -/
def simplify_diff_for_local (diff_text : List Char) (max_changed_lines : Nat) : List Char :=
  joinlines (simplifyLoop max_changed_lines (splitlines diff_text) 0)

/-- gitai.py estimate_cost_usd. The pricing table (a JSON object of JSON
objects) and the usage mapping are association lists; the float prices are
modeled as rationals. A missing "input"/"output" key inside a present,
non-empty pricing entry is a Python KeyError, modeled as Except.error; the
Python `if not pricing` truthiness test is false both for an absent model
and for a model mapped to an empty object. -/
def estimate_cost_usd (pricingTable : List (String × List (String × Rat)))
    (model : String) (usage : List (String × Int)) :
    Except String (Option (Int × Int × Int × Rat)) :=
  match pricingTable.lookup model with
  | none => Except.ok none
  | some pricing =>
    if pricing.isEmpty then Except.ok none
    else
      let pt := (usage.lookup ("prompt_tokens")).getD 0
      let ct := (usage.lookup ("completion_tokens")).getD 0
      let tt := (usage.lookup ("total_tokens")).getD (pt + ct)
      match pricing.lookup ("input"), pricing.lookup ("output") with
      | some inputPrice, some outputPrice =>
        Except.ok (some (pt, ct, tt,
          ((pt : Rat) / 1000000) * inputPrice + ((ct : Rat) / 1000000) * outputPrice))
      | _, _ => Except.error ("KeyError")

/-- The "find first non-empty line as subject" loop shared by
ensure_topic_line and the commit-splitting code in main: index of the first
line whose strip is non-empty. -/
def findSubjectIdx : List (List Char) → Option Nat
  | [] => none
  | ln :: rest =>
    if isBlank ln then (findSubjectIdx rest).map (· + 1) else some 0

/-- The per-line test of the ensure_topic_line while-loop:
`lines[j].strip().lower().startswith("topic:")`. -/
def isTopicB (ln : List Char) : Bool :=
  List.isPrefixOf (("topic:").toList) (lower (strip ln))

/-- The while-loop of ensure_topic_line, applied to the lines after the
subject: scan the contiguous non-blank block for a line whose stripped,
lowercased form starts with "topic:". -/
def scanTopic : List (List Char) → Bool
  | [] => false
  | ln :: rest =>
    if isBlank ln then false
    else if isTopicB ln then true
    else scanTopic rest

/-- gitai.py ensure_topic_line: no-op (up to stripping) when the stripped
manual topic is empty, when the message has no lines or no non-blank line, or
when a Topic line already follows the subject; otherwise insert
"Topic: " ++ stripped topic right after the subject line and strip the
joined result. -/
def ensure_topic_line (msg manual_topic : List Char) : List Char :=
  let mt := strip manual_topic
  if mt = [] then strip msg
  else
    let lines := splitlines msg
    if lines.isEmpty then strip msg
    else
      match findSubjectIdx lines with
      | none => strip msg
      | some i =>
        if scanTopic (lines.drop (i + 1)) then strip msg
        else
          strip (joinlines
            (lines.take (i + 1) ++ [("Topic: ").toList ++ mt] ++ lines.drop (i + 1)))

/-- The subject/body split performed by main after the user accepts the
message: subject is the first non-blank line verbatim; the body is the
remaining lines with one leading blank line dropped and the join
right-stripped. When no non-blank line exists, main prints an error and
exits with code 1, modeled as Except.error 1. -/
def split_message (msg : List Char) : Except Nat (List Char × List Char) :=
  let lines := splitlines msg
  match findSubjectIdx lines with
  | none => Except.error 1
  | some i =>
    let subject := lines.getD i []
    let body_lines := lines.drop (i + 1)
    let body_lines :=
      match body_lines with
      | [] => []
      | b :: rest => if isBlank b then rest else b :: rest
    Except.ok (subject, rstrip (joinlines body_lines))

/-- gitai.py build_prompt with the built-in default template (no prompt.txt
override): the template literal is stripped, then the placeholders are
substituted; the manual-rules and manual-block parts are present exactly when
the stripped manual topic is non-empty. -/
def build_prompt (files : List (List Char)) (diff : List Char) (manual_topic : List Char) :
    List Char :=
  let mt := strip manual_topic
  let manual_rules :=
    if mt = [] then []
    else ("- You MUST include a one-line \x27Topic:\x27 line immediately AFTER the subject line.\n- Format exactly: Topic: <manual_topic>\n").toList
  let manual_block :=
    if mt = [] then []
    else ("\nManual commit message topic:\n").toList ++ mt ++ ['\n']
  ("You are an expert software engineer.\n\nWrite a Conventional Commit message based on the STAGED DIFF.\n\nRules:\n- Output ONLY the commit message (no commentary, no extra text).\n- Subject line: <type>(<optional scope>): <imperative summary>, max 72 chars.\n").toList
    ++ manual_rules
    ++ ("- Blank line after the subject line (and after Topic line if present).\n- Total number code lines added and removed.\n- Blank line.\n- Then write the body FIRST under heading \"CHANGES:\" with 2â€“8 concise bullet points intent articulation describing what changed and why. Format clearly with line spacing so it is easy to read.\n- Then include a section titled \"Files changed:\" at the VERY END and include all changed files.\n\nFiles:\n").toList
    ++ joinlines files ++ ['\n']
    ++ manual_block
    ++ ("\nSTAGED DIFF:\n").toList
    ++ diff

/-- Outcome of the front part of the commit command: either the process
exits with a code before any backend is contacted, or a backend (local or
remote) is invoked with the assembled prompt. -/
inductive CommitStep : Type
  | exit (code : Nat)
  | invokeBackend (useLocal : Bool) (prompt : List Char)
deriving DecidableEq

/-- The commit-command control flow of gitai.py main from the staged-diff
capture up to the backend invocation: the empty-diff guard runs before any
reduction or backend work; the remote path additionally exits when the
configured credential environment variable is unset or empty (both modeled
by an empty key). Configuration constants are parameters. -/
def commit_flow (maxDiffLines maxLocalChangedLines : Nat) (useLocal : Bool)
    (apiKey : List Char) (diff : List Char) (files : List (List Char))
    (manual_message : List Char) : CommitStep :=
  if strip diff = [] then CommitStep.exit 1
  else
    let tres := truncate_diff maxDiffLines diff
    let diff_for_prompt :=
      if useLocal then simplify_diff_for_local diff maxLocalChangedLines else tres.1
    let prompt := build_prompt files diff_for_prompt manual_message
    if useLocal then CommitStep.invokeBackend true prompt
    else if apiKey = [] then CommitStep.exit 1
    else CommitStep.invokeBackend false prompt

/-- Spec-side: a file-header or hunk-header line of a diff, as enumerated by
the claim: prefixes "diff --git ", "index ", "--- ", "+++ ", "@@". -/
def isHeaderLine (l : List Char) : Bool :=
  List.isPrefixOf (("diff --git ").toList) l || List.isPrefixOf (("index ").toList) l
    || List.isPrefixOf (("--- ").toList) l || List.isPrefixOf (("+++ ").toList) l
    || List.isPrefixOf (("@@").toList) l

/-- Spec-side: an added/removed content line, excluding the two path-header
lines that also start with the add/remove marker. -/
def isContentLine (l : List Char) : Bool :=
  (List.isPrefixOf (['+']) l || List.isPrefixOf (['-']) l)
    && !(List.isPrefixOf (("+++").toList) l || List.isPrefixOf (("---").toList) l)

/-- Number of added/removed content lines in a list of lines. -/
def countContent (L : List (List Char)) : Nat := L.countP isContentLine

/-- Spec-side: the prefix of a line list extending up to and including its
k-th content line (the whole list when it has fewer than k content lines). -/
def takeToContent : Nat → List (List Char) → List (List Char)
  | _, [] => []
  | k, l :: rest =>
    if isContentLine l then
      if k ≤ 1 then [l] else l :: takeToContent (k - 1) rest
    else l :: takeToContent k rest

/-- Spec-side reading of the insertion claim: the message with a new line
"Topic: " ++ topic placed directly after the subject line (the first line
whose strip is non-empty), and nothing else changed. -/
def insertTopicAfterSubject (msg topic : List Char) : List Char :=
  let lines := splitlines msg
  match findSubjectIdx lines with
  | none => msg
  | some i =>
    joinlines (lines.take (i + 1) ++ [("Topic: ").toList ++ topic] ++ lines.drop (i + 1))

/- ### Basic facts about the character-level primitives -/

theorem bool_eq_of_iff {a b : Bool} (h : a = true ↔ b = true) : a = b := by
  cases a <;> cases b <;> simp_all

theorem dropWhile_dropWhile {α : Type} (p : α → Bool) (l : List α) :
    List.dropWhile p (List.dropWhile p l) = List.dropWhile p l := by
  induction l with
  | nil => rfl
  | cons a l ih =>
    cases hp : p a <;> simp [List.dropWhile_cons, hp, ih]

theorem dropWhile_eq_self_of_head {α : Type} (p : α → Bool) (l : List α)
    (h : ∀ a, l.head? = some a → p a = false) : List.dropWhile p l = l := by
  cases l with
  | nil => rfl
  | cons a t => simp [List.dropWhile_cons, h a rfl]

theorem head_not_of_dropWhile_eq_self {α : Type} (p : α → Bool) (l : List α)
    (h : List.dropWhile p l = l) : ∀ a, l.head? = some a → p a = false := by
  cases l with
  | nil => intro a ha; cases ha
  | cons b t =>
    intro a ha
    cases hp : p b
    · cases ha; exact hp
    · exfalso
      rw [List.dropWhile_cons, hp] at h
      have hlen := congrArg List.length h
      have hle := (@List.dropWhile_sublist _ t p).length_le
      simp at hlen
      omega

theorem getLast?_of_suffix {α : Type} {s y : List α} (h : s <:+ y) (hs : s ≠ []) :
    y.getLast? = s.getLast? := by
  obtain ⟨u, rfl⟩ := h
  rw [List.getLast?_append]
  cases hl : s.getLast? with
  | none => exact absurd (List.getLast?_eq_none_iff.mp hl) hs
  | some a => rfl

theorem lstrip_nil : lstrip [] = [] := rfl

theorem rstrip_nil : rstrip [] = [] := rfl

theorem strip_nil : strip [] = [] := rfl

theorem lstrip_idem (s : List Char) : lstrip (lstrip s) = lstrip s :=
  dropWhile_dropWhile pyws s

theorem rstrip_idem (s : List Char) : rstrip (rstrip s) = rstrip s := by
  unfold rstrip
  rw [List.reverse_reverse, dropWhile_dropWhile]

theorem rstrip_lstrip_of_fix (y : List Char) (h : rstrip y = y) :
    rstrip (lstrip y) = lstrip y := by
  by_cases hl : lstrip y = []
  · rw [hl]; rfl
  · have hsuffix : lstrip y <:+ y := List.dropWhile_suffix pyws
    have hlast : y.getLast? = (lstrip y).getLast? := getLast?_of_suffix hsuffix hl
    have hrev : List.dropWhile pyws y.reverse = y.reverse := by
      have h2 := congrArg List.reverse h
      rwa [rstrip, List.reverse_reverse] at h2
    have hhead : ∀ a, y.reverse.head? = some a → pyws a = false :=
      head_not_of_dropWhile_eq_self pyws y.reverse hrev
    unfold rstrip
    rw [dropWhile_eq_self_of_head pyws (lstrip y).reverse ?_, List.reverse_reverse]
    intro b hb
    apply hhead
    rw [List.head?_reverse] at hb ⊢
    rw [hlast]
    exact hb

theorem strip_idem (s : List Char) : strip (strip s) = strip s := by
  unfold strip
  rw [rstrip_lstrip_of_fix (rstrip s) (rstrip_idem s), lstrip_idem]

theorem strip_rstrip (s : List Char) : strip (rstrip s) = strip s := by
  unfold strip
  rw [rstrip_idem]

theorem mem_of_mem_lstrip {c : Char} {l : List Char} (h : c ∈ lstrip l) : c ∈ l :=
  (List.dropWhile_sublist pyws).mem h

theorem mem_of_mem_rstrip {c : Char} {l : List Char} (h : c ∈ rstrip l) : c ∈ l := by
  unfold rstrip at h
  rw [List.mem_reverse] at h
  exact List.mem_reverse.mp ((List.dropWhile_sublist pyws).mem h)

theorem all_of_all_lstrip {l : List Char} (h : ∀ c ∈ lstrip l, pyws c = true) :
    ∀ c ∈ l, pyws c = true := by
  intro c hc
  have := List.takeWhile_append_dropWhile pyws l
  rw [← this] at hc
  rcases List.mem_append.mp hc with h1 | h2
  · exact List.mem_takeWhile_imp h1
  · exact h c h2

theorem all_of_all_rstrip {l : List Char} (h : ∀ c ∈ rstrip l, pyws c = true) :
    ∀ c ∈ l, pyws c = true := by
  intro c hc
  have hc2 : c ∈ l.reverse := List.mem_reverse.mpr hc
  have := List.takeWhile_append_dropWhile pyws l.reverse
  rw [← this] at hc2
  rcases List.mem_append.mp hc2 with h1 | h2
  · exact List.mem_takeWhile_imp h1
  · exact h c (by unfold rstrip; rwa [List.mem_reverse])

theorem lstrip_eq_nil_iff {l : List Char} : lstrip l = [] ↔ ∀ c ∈ l, pyws c = true := by
  unfold lstrip
  rw [List.dropWhile_eq_nil_iff]

theorem rstrip_eq_nil_iff {l : List Char} : rstrip l = [] ↔ ∀ c ∈ l, pyws c = true := by
  unfold rstrip
  rw [List.reverse_eq_nil_iff, List.dropWhile_eq_nil_iff]
  constructor
  · intro h c hc
    exact h c (List.mem_reverse.mpr hc)
  · intro h c hc
    exact h c (List.mem_reverse.mp hc)

theorem strip_eq_nil_iff {l : List Char} : strip l = [] ↔ ∀ c ∈ l, pyws c = true := by
  unfold strip
  rw [lstrip_eq_nil_iff]
  constructor
  · exact fun h => all_of_all_rstrip h
  · intro h c hc
    exact h c (mem_of_mem_rstrip hc)

theorem isBlank_iff {l : List Char} : isBlank l = true ↔ ∀ c ∈ l, pyws c = true := by
  unfold isBlank
  rw [beq_iff_eq, strip_eq_nil_iff]

theorem isBlank_nil : isBlank ([] : List Char) = true := rfl

theorem isBlank_cons (c : Char) (l : List Char) :
    isBlank (c :: l) = (pyws c && isBlank l) := by
  apply bool_eq_of_iff
  rw [isBlank_iff, Bool.and_eq_true, isBlank_iff]
  simp

theorem isBlank_rstrip (l : List Char) : isBlank (rstrip l) = isBlank l := by
  unfold isBlank
  rw [strip_rstrip]

theorem isBlank_lstrip (l : List Char) : isBlank (lstrip l) = isBlank l := by
  apply bool_eq_of_iff
  rw [isBlank_iff, isBlank_iff]
  exact ⟨fun h => all_of_all_lstrip h, fun h c hc => h c (mem_of_mem_lstrip hc)⟩

theorem lstrip_cons_of_ws {c : Char} (s : List Char) (h : pyws c = true) :
    lstrip (c :: s) = lstrip s := by
  unfold lstrip
  rw [List.dropWhile_cons, h]
  rfl

theorem lstrip_cons_of_not {c : Char} (s : List Char) (h : pyws c = false) :
    lstrip (c :: s) = c :: s := by
  unfold lstrip
  rw [List.dropWhile_cons, h]
  rfl

theorem rstrip_cons (c : Char) (s : List Char) :
    rstrip (c :: s) =
      if rstrip s = [] then (if pyws c = true then [] else [c]) else c :: rstrip s := by
  unfold rstrip
  rw [List.reverse_cons, List.dropWhile_append]
  by_cases h : List.dropWhile pyws s.reverse = []
  · rw [if_pos (by simp [h]), if_pos (by rw [List.reverse_eq_nil_iff]; exact h)]
    cases hc : pyws c <;> simp [List.dropWhile_cons, hc]
  · rw [if_neg (by simp [h]), if_neg (by rw [List.reverse_eq_nil_iff]; exact h)]
    simp

theorem rstrip_append (a b : List Char) :
    rstrip (a ++ b) = if rstrip b = [] then rstrip a else a ++ rstrip b := by
  unfold rstrip
  rw [List.reverse_append, List.dropWhile_append]
  by_cases h : List.dropWhile pyws b.reverse = []
  · rw [if_pos (by simp [h]), if_pos (by rw [List.reverse_eq_nil_iff]; exact h)]
  · rw [if_neg (by simp [h]), if_neg (by rw [List.reverse_eq_nil_iff]; exact h)]
    simp

/- ### Structure of splitlines and joinlines -/

theorem splitlines_nil : splitlines [] = [] := rfl

theorem splitlines_cons_newline (cs : List Char) :
    splitlines ('\n' :: cs) = [] :: splitlines cs := by
  simp [splitlines]

theorem splitlines_cons_of_ne {c : Char} (cs : List Char) (h : ¬ c = '\n') :
    splitlines (c :: cs) =
      match splitlines cs with
      | [] => [[c]]
      | l :: ls => (c :: l) :: ls := by
  simp [splitlines, h]

theorem splitlines_eq_nil_iff (s : List Char) : splitlines s = [] ↔ s = [] := by
  cases s with
  | nil => simp [splitlines]
  | cons c cs =>
    simp only [iff_false, List.cons_ne_nil, Ne]
    intro h
    by_cases hc : c = '\n'
    · subst hc; rw [splitlines_cons_newline] at h; cases h
    · rw [splitlines_cons_of_ne cs hc] at h
      cases hcs : splitlines cs with
      | nil => rw [hcs] at h; cases h
      | cons l ls => rw [hcs] at h; cases h

theorem not_newline_mem_splitlines (s : List Char) :
    ∀ l ∈ splitlines s, '\n' ∉ l := by
  induction s with
  | nil => intro l hl; cases hl
  | cons c cs ih =>
    by_cases hc : c = '\n'
    · subst hc
      rw [splitlines_cons_newline]
      intro l hl
      rcases List.mem_cons.mp hl with rfl | hl2
      · simp
      · exact ih l hl2
    · rw [splitlines_cons_of_ne cs hc]
      cases hcs : splitlines cs with
      | nil =>
        intro l hl
        rcases List.mem_cons.mp hl with rfl | hl2
        · simp [hc]; intro h; exact hc h.symm
        · cases hl2
      | cons m ms =>
        intro l hl
        rcases List.mem_cons.mp hl with rfl | hl2
        · intro hmem
          rcases List.mem_cons.mp hmem with h1 | h2
          · exact hc h1.symm
          · exact ih m (by rw [hcs]; exact List.mem_cons_self m ms) h2
        · exact ih l (by rw [hcs]; exact List.mem_cons_of_mem m hl2)

theorem splitlines_append_newline (l rest : List Char) (h : '\n' ∉ l) :
    splitlines (l ++ '\n' :: rest) = l :: splitlines rest := by
  induction l with
  | nil => simp [splitlines_cons_newline]
  | cons c l' ih =>
    have hc : ¬ c = '\n' := fun hcc => h (hcc ▸ List.mem_cons_self c l')
    have hl' : '\n' ∉ l' := fun hm => h (List.mem_cons_of_mem c hm)
    rw [List.cons_append, splitlines_cons_of_ne _ hc, ih hl']

theorem splitlines_append_headD (p s : List Char) (hnl : '\n' ∉ p) (hne : p ≠ []) :
    splitlines (p ++ s) = (p ++ (splitlines s).headD []) :: (splitlines s).tail := by
  induction p with
  | nil => exact absurd rfl hne
  | cons c p' ih =>
    have hc : ¬ c = '\n' := fun hcc => hnl (hcc ▸ List.mem_cons_self c p')
    have hp' : '\n' ∉ p' := fun hm => hnl (List.mem_cons_of_mem c hm)
    cases p' with
    | nil =>
      rw [List.cons_append, List.nil_append, splitlines_cons_of_ne s hc]
      cases hs : splitlines s with
      | nil => simp
      | cons m ms => simp
    | cons d p'' =>
      rw [List.cons_append, splitlines_cons_of_ne _ hc, ih hp' (List.cons_ne_nil d p'')]
      simp

theorem splitlines_of_no_newline (l : List Char) (hnl : '\n' ∉ l) (hne : l ≠ []) :
    splitlines l = [l] := by
  have h := splitlines_append_headD l [] hnl hne
  rw [List.append_nil] at h
  rw [h, splitlines_nil]
  simp

theorem joinlines_nil : joinlines [] = [] := rfl

theorem joinlines_singleton (l : List Char) : joinlines [l] = l := rfl

theorem joinlines_cons_cons (l m : List Char) (ls : List (List Char)) :
    joinlines (l :: m :: ls) = l ++ '\n' :: joinlines (m :: ls) := rfl

theorem joinlines_cons_of_ne (l : List Char) (ls : List (List Char)) (h : ls ≠ []) :
    joinlines (l :: ls) = l ++ '\n' :: joinlines ls := by
  cases ls with
  | nil => exact absurd rfl h
  | cons m ms => rfl

theorem joinlines_append (A M : List (List Char)) (hA : A ≠ []) (hM : M ≠ []) :
    joinlines (A ++ M) = joinlines A ++ '\n' :: joinlines M := by
  induction A with
  | nil => exact absurd rfl hA
  | cons a A' ih =>
    cases A' with
    | nil =>
      rw [List.cons_append, List.nil_append, joinlines_cons_of_ne a M hM, joinlines_singleton]
    | cons b B' =>
      rw [List.cons_append, joinlines_cons_of_ne a ((b :: B') ++ M) (by simp),
        ih (by simp), joinlines_cons_of_ne a (b :: B') (by simp)]
      simp

theorem splitlines_joinlines (L : List (List Char)) :
    (∀ l ∈ L, '\n' ∉ l) → L.getLast? ≠ some [] → splitlines (joinlines L) = L := by
  induction L with
  | nil => intro _ _; rfl
  | cons l ls ih =>
    intro hnl hlast
    cases ls with
    | nil =>
      rw [joinlines_singleton]
      have hne : l ≠ [] := fun hl => hlast (by rw [hl]; rfl)
      exact splitlines_of_no_newline l (hnl l (List.mem_cons_self l [])) hne
    | cons m ms =>
      rw [joinlines_cons_of_ne l (m :: ms) (by simp),
        splitlines_append_newline l _ (hnl l (List.mem_cons_self l (m :: ms))),
        ih (fun x hx => hnl x (List.mem_cons_of_mem l hx))
          (by rwa [List.getLast?_cons_cons] at hlast)]

theorem splitlines_joinlines_append (A : List (List Char)) (rest : List Char)
    (hnl : ∀ l ∈ A, '\n' ∉ l) (hA : A ≠ []) :
    splitlines (joinlines A ++ '\n' :: rest) = A ++ splitlines rest := by
  induction A with
  | nil => exact absurd rfl hA
  | cons a A' ih =>
    cases hA' : A' with
    | nil =>
      rw [joinlines_singleton,
        splitlines_append_newline a rest (hnl a (List.mem_cons_self a A'))]
      rfl
    | cons b B' =>
      rw [← hA', joinlines_cons_of_ne a A' (by rw [hA']; simp), List.append_assoc,
        List.cons_append, splitlines_append_newline a _ (hnl a (List.mem_cons_self a A')),
        ih (fun x hx => hnl x (List.mem_cons_of_mem a hx)) (by rw [hA']; simp)]
      rfl

/- ### Blank lines versus whitespace-only text -/

theorem splitlines_blank_of_all_ws (s : List Char) :
    (∀ c ∈ s, pyws c = true) → ∀ l ∈ splitlines s, isBlank l = true := by
  induction s with
  | nil => intro _ l hl; cases hl
  | cons c cs ih =>
    intro h l hl
    have hc : pyws c = true := h c (List.mem_cons_self c cs)
    have hcs : ∀ x ∈ cs, pyws x = true := fun x hx => h x (List.mem_cons_of_mem c hx)
    by_cases hnl : c = '\n'
    · subst hnl
      rw [splitlines_cons_newline] at hl
      rcases List.mem_cons.mp hl with rfl | hl2
      · exact isBlank_nil
      · exact ih hcs l hl2
    · rw [splitlines_cons_of_ne cs hnl] at hl
      cases hsp : splitlines cs with
      | nil =>
        rw [hsp] at hl
        rcases List.mem_cons.mp hl with rfl | hl2
        · rw [isBlank_cons, hc, isBlank_nil]; rfl
        · cases hl2
      | cons m ms =>
        rw [hsp] at hl
        rcases List.mem_cons.mp hl with rfl | hl2
        · rw [isBlank_cons, hc, ih hcs m (by rw [hsp]; exact List.mem_cons_self m ms)]
          rfl
        · exact ih hcs l (by rw [hsp]; exact List.mem_cons_of_mem m hl2)

theorem all_ws_of_splitlines_blank (s : List Char) :
    (∀ l ∈ splitlines s, isBlank l = true) → ∀ c ∈ s, pyws c = true := by
  induction s with
  | nil => intro _ c hc; cases hc
  | cons c cs ih =>
    intro h x hx
    by_cases hnl : c = '\n'
    · subst hnl
      rw [splitlines_cons_newline] at h
      rcases List.mem_cons.mp hx with rfl | hx2
      · decide
      · exact ih (fun l hl => h l (List.mem_cons_of_mem [] hl)) x hx2
    · rw [splitlines_cons_of_ne cs hnl] at h
      cases hsp : splitlines cs with
      | nil =>
        have hcs : cs = [] := (splitlines_eq_nil_iff cs).mp hsp
        rw [hsp] at h
        have hblank := h [c] (List.mem_cons_self [c] [])
        rw [isBlank_cons] at hblank
        have hc : pyws c = true := by
          cases hw : pyws c
          · rw [hw] at hblank; cases hblank
          · rfl
        rcases List.mem_cons.mp hx with rfl | hx2
        · exact hc
        · rw [hcs] at hx2; cases hx2
      | cons m ms =>
        rw [hsp] at h
        have hblank := h (c :: m) (List.mem_cons_self (c :: m) ms)
        rw [isBlank_cons, Bool.and_eq_true] at hblank
        rcases List.mem_cons.mp hx with rfl | hx2
        · exact hblank.1
        · apply ih ?_ x hx2
          rw [hsp]
          intro l hl
          rcases List.mem_cons.mp hl with rfl | hl2
          · exact hblank.2
          · exact h l (List.mem_cons_of_mem (c :: m) hl2)

theorem strip_eq_nil_of_all_blank (s : List Char)
    (h : ∀ l ∈ splitlines s, isBlank l = true) : strip s = [] :=
  strip_eq_nil_iff.mpr (all_ws_of_splitlines_blank s h)

/- ### Line-level views of lstrip, rstrip and strip -/

/-- Drop leading blank lines. -/
def dropLeadB (L : List (List Char)) : List (List Char) := L.dropWhile isBlank

/-- Drop trailing blank lines. -/
def dropTrailB (L : List (List Char)) : List (List Char) :=
  (L.reverse.dropWhile isBlank).reverse

/-- Apply a function to the last element of a list, if any. -/
def modifyLast {α : Type} (f : α → α) (l : List α) : List α :=
  (List.modifyHead f l.reverse).reverse

/-- Line-level effect of strip on the splitlines view: trailing blank lines
go first, the last remaining line is right-stripped, then leading blank
lines go, and the first remaining line is left-stripped. -/
def normLines (L : List (List Char)) : List (List Char) :=
  List.modifyHead lstrip (dropLeadB (modifyLast rstrip (dropTrailB L)))

theorem splitlines_lstrip (x : List Char) :
    splitlines (lstrip x) = List.modifyHead lstrip (dropLeadB (splitlines x)) := by
  induction x with
  | nil => rfl
  | cons c cs ih =>
    by_cases hnl : c = '\n'
    · subst hnl
      rw [lstrip_cons_of_ws cs (by decide), splitlines_cons_newline, ih]
      have : dropLeadB ([] :: splitlines cs) = dropLeadB (splitlines cs) := by
        unfold dropLeadB
        rw [List.dropWhile_cons, isBlank_nil]
        rfl
      rw [this]
    · cases hw : pyws c
      · rw [lstrip_cons_of_not cs hw, splitlines_cons_of_ne cs hnl]
        cases hsp : splitlines cs with
        | nil =>
          have hb : isBlank [c] = false := by
            rw [isBlank_cons, hw]
            rfl
          simp [dropLeadB, List.dropWhile_cons, hb, lstrip_cons_of_not [] hw]
        | cons m ms =>
          have hb : isBlank (c :: m) = false := by
            rw [isBlank_cons, hw]
            rfl
          simp [dropLeadB, List.dropWhile_cons, hb, lstrip_cons_of_not m hw]
      · rw [lstrip_cons_of_ws cs hw, splitlines_cons_of_ne cs hnl, ih]
        cases hsp : splitlines cs with
        | nil =>
          have hcs : cs = [] := (splitlines_eq_nil_iff cs).mp hsp
          subst hcs
          have hb : isBlank [c] = true := by
            rw [isBlank_cons, hw, isBlank_nil]
            rfl
          simp [dropLeadB, List.dropWhile_cons, hb, splitlines_nil]
        | cons m ms =>
          have hbl : isBlank (c :: m) = (isBlank m) := by
            rw [isBlank_cons, hw]
            cases isBlank m <;> rfl
          cases hm : isBlank m
          · simp [dropLeadB, List.dropWhile_cons, hbl, hm, lstrip_cons_of_ws m hw]
          · simp [dropLeadB, List.dropWhile_cons, hbl, hm]

theorem bool_true_of_not_false {b : Bool} (h : ¬ b = false) : b = true := by
  cases b
  · exact absurd rfl h
  · rfl

theorem rstrip_ne_nil_of_nonblank {m : List Char} (h : isBlank m = false) : rstrip m ≠ [] := by
  intro hr
  have h2 : isBlank m = true := isBlank_iff.mpr (rstrip_eq_nil_iff.mp hr)
  rw [h] at h2
  cases h2

theorem dropTrailB_nil : dropTrailB [] = [] := rfl

theorem dropTrailB_eq_nil {L : List (List Char)} (h : ∀ l ∈ L, isBlank l = true) :
    dropTrailB L = [] := by
  unfold dropTrailB
  rw [List.reverse_eq_nil_iff, List.dropWhile_eq_nil_iff]
  intro x hx
  exact h x (List.mem_reverse.mp hx)

theorem dropTrailB_ne_nil {L : List (List Char)} (h : ∃ y ∈ L, isBlank y = false) :
    dropTrailB L ≠ [] := by
  unfold dropTrailB
  rw [Ne, List.reverse_eq_nil_iff, List.dropWhile_eq_nil_iff]
  intro hall
  obtain ⟨y, hyL, hyb⟩ := h
  have h2 := hall y (List.mem_reverse.mpr hyL)
  rw [hyb] at h2
  cases h2

theorem dropTrailB_append_of_ex (L M : List (List Char)) (h : ∃ y ∈ M, isBlank y = false) :
    dropTrailB (L ++ M) = L ++ dropTrailB M := by
  unfold dropTrailB
  rw [List.reverse_append, List.dropWhile_append]
  have hne : List.dropWhile isBlank M.reverse ≠ [] := by
    rw [Ne, List.dropWhile_eq_nil_iff]
    intro hall
    obtain ⟨y, hyM, hyb⟩ := h
    have h2 := hall y (List.mem_reverse.mpr hyM)
    rw [hyb] at h2
    cases h2
  rw [if_neg (by simpa using hne), List.reverse_append, List.reverse_reverse]

theorem dropTrailB_cons_nonblank (x : List Char) (Y : List (List Char))
    (hx : isBlank x = false) : dropTrailB (x :: Y) = x :: dropTrailB Y := by
  by_cases h : ∃ y ∈ Y, isBlank y = false
  · have h2 := dropTrailB_append_of_ex [x] Y h
    simpa using h2
  · push_neg at h
    have hall : ∀ y ∈ Y, isBlank y = true := fun y hy => bool_true_of_not_false (h y hy)
    rw [dropTrailB_eq_nil hall]
    unfold dropTrailB
    rw [List.reverse_cons, List.dropWhile_append]
    have h1 : List.dropWhile isBlank Y.reverse = [] := by
      rw [List.dropWhile_eq_nil_iff]
      intro z hz
      exact hall z (List.mem_reverse.mp hz)
    rw [if_pos (by simp [h1])]
    simp [List.dropWhile_cons, hx]

theorem dropTrailB_cons_of_ex (a : List Char) (S : List (List Char))
    (h : ∃ y ∈ S, isBlank y = false) : dropTrailB (a :: S) = a :: dropTrailB S := by
  have h2 := dropTrailB_append_of_ex [a] S h
  simpa using h2

theorem modifyLast_nil {α : Type} (f : α → α) : modifyLast f [] = [] := rfl

theorem modifyLast_singleton {α : Type} (f : α → α) (a : α) : modifyLast f [a] = [f a] := rfl

theorem modifyLast_append {α : Type} (f : α → α) (L M : List α) (hM : M ≠ []) :
    modifyLast f (L ++ M) = L ++ modifyLast f M := by
  unfold modifyLast
  rw [List.reverse_append]
  cases hM2 : M.reverse with
  | nil => exact absurd (List.reverse_eq_nil_iff.mp hM2) hM
  | cons b bs =>
    rw [List.cons_append, List.modifyHead_cons, List.modifyHead_cons]
    simp

theorem modifyLast_cons {α : Type} (f : α → α) (a : α) (L : List α) (hL : L ≠ []) :
    modifyLast f (a :: L) = a :: modifyLast f L := by
  have h := modifyLast_append f [a] L hL
  simpa using h

theorem splitlines_rstrip (x : List Char) :
    splitlines (rstrip x) = modifyLast rstrip (dropTrailB (splitlines x)) := by
  induction x with
  | nil => rfl
  | cons c cs ih =>
    rw [rstrip_cons]
    by_cases hrc : rstrip cs = []
    · rw [if_pos hrc]
      have hallcs : ∀ ch ∈ cs, pyws ch = true := rstrip_eq_nil_iff.mp hrc
      have hblanks : ∀ l ∈ splitlines cs, isBlank l = true :=
        splitlines_blank_of_all_ws cs hallcs
      by_cases hnl : c = '\n'
      · subst hnl
        rw [if_pos (by decide), splitlines_nil, splitlines_cons_newline]
        rw [dropTrailB_eq_nil ?_]
        · rfl
        · intro l hl
          rcases List.mem_cons.mp hl with rfl | h2
          · exact isBlank_nil
          · exact hblanks l h2
      · cases hw : pyws c
        · rw [if_neg (by simp [hw]), splitlines_cons_of_ne cs hnl]
          have hsc : splitlines [c] = [[c]] := by
            rw [splitlines_cons_of_ne [] hnl, splitlines_nil]
          cases hsp : splitlines cs with
          | nil =>
            have hcb : isBlank [c] = false := by rw [isBlank_cons, hw]; rfl
            rw [hsc, dropTrailB_cons_nonblank [c] [] hcb, dropTrailB_nil,
              modifyLast_singleton, rstrip_cons, if_pos rstrip_nil, if_neg (by simp [hw])]
          | cons m ms =>
            rw [hsp] at hblanks
            have hmb : isBlank m = true := hblanks m (List.mem_cons_self m ms)
            have hcmb : isBlank (c :: m) = false := by rw [isBlank_cons, hw]; rfl
            have hmsb : ∀ l ∈ ms, isBlank l = true :=
              fun l hl => hblanks l (List.mem_cons_of_mem m hl)
            have hrm : rstrip m = [] := rstrip_eq_nil_iff.mpr (fun ch hch => isBlank_iff.mp hmb ch hch)
            rw [hsc, dropTrailB_cons_nonblank (c :: m) ms hcmb, dropTrailB_eq_nil hmsb,
              modifyLast_singleton, rstrip_cons, if_pos hrm, if_neg (by simp [hw])]
        · rw [if_pos rfl, splitlines_nil, splitlines_cons_of_ne cs hnl]
          cases hsp : splitlines cs with
          | nil =>
            have hcb : isBlank [c] = true := by
              rw [isBlank_cons, hw, isBlank_nil]
              rfl
            rw [dropTrailB_eq_nil (by intro l hl; rcases List.mem_cons.mp hl with rfl | h2; exact hcb; cases h2)]
            rfl
          | cons m ms =>
            rw [hsp] at hblanks
            have hmb : isBlank m = true := hblanks m (List.mem_cons_self m ms)
            have hcmb : isBlank (c :: m) = true := by
              rw [isBlank_cons, hw, hmb]
              rfl
            rw [dropTrailB_eq_nil ?_]
            · rfl
            · intro l hl
              rcases List.mem_cons.mp hl with rfl | h2
              · exact hcmb
              · exact hblanks l (List.mem_cons_of_mem m h2)
    · rw [if_neg hrc]
      have hex : ∃ y ∈ splitlines cs, isBlank y = false := by
        by_contra hno
        push_neg at hno
        apply hrc
        rw [rstrip_eq_nil_iff]
        exact all_ws_of_splitlines_blank cs (fun l hl => bool_true_of_not_false (hno l hl))
      by_cases hnl : c = '\n'
      · subst hnl
        rw [splitlines_cons_newline, splitlines_cons_newline, ih,
          dropTrailB_cons_of_ex [] _ hex,
          modifyLast_cons rstrip [] _ (dropTrailB_ne_nil hex)]
      · have hcsne : splitlines cs ≠ [] := by
          intro h0
          obtain ⟨y, hy, _⟩ := hex
          rw [h0] at hy
          cases hy
        cases hsp : splitlines cs with
        | nil => exact absurd hsp hcsne
        | cons m ms =>
          rw [hsp] at hex ih
          have hlhs : splitlines (c :: rstrip cs) =
              match splitlines (rstrip cs) with
              | [] => [[c]]
              | k :: kt => (c :: k) :: kt := splitlines_cons_of_ne (rstrip cs) hnl
          have hsp2 : splitlines (c :: cs) = (c :: m) :: ms := by
            rw [splitlines_cons_of_ne cs hnl, hsp]
          by_cases hex2 : ∃ y ∈ ms, isBlank y = false
          · have hDne := dropTrailB_ne_nil hex2
            have hlhs2 : splitlines (c :: rstrip cs) =
                (c :: m) :: modifyLast rstrip (dropTrailB ms) := by
              rw [hlhs, ih, dropTrailB_cons_of_ex m ms hex2,
                modifyLast_cons rstrip m _ hDne]
            rw [hsp2, hlhs2, dropTrailB_cons_of_ex (c :: m) ms hex2,
              modifyLast_cons rstrip (c :: m) _ hDne]
          · push_neg at hex2
            have hallms : ∀ y ∈ ms, isBlank y = true :=
              fun y hy => bool_true_of_not_false (hex2 y hy)
            have hmb : isBlank m = false := by
              obtain ⟨y, hy, hyb⟩ := hex
              rcases List.mem_cons.mp hy with rfl | h2
              · exact hyb
              · rw [hallms y h2] at hyb; cases hyb
            have hcmb : isBlank (c :: m) = false := by
              rw [isBlank_cons]
              cases pyws c
              · rfl
              · rw [hmb]; rfl
            have hlhs2 : splitlines (c :: rstrip cs) = [c :: rstrip m] := by
              rw [hlhs, ih, dropTrailB_cons_nonblank m ms hmb, dropTrailB_eq_nil hallms,
                modifyLast_singleton]
            rw [hsp2, hlhs2, dropTrailB_cons_nonblank (c :: m) ms hcmb,
              dropTrailB_eq_nil hallms, modifyLast_singleton, rstrip_cons,
              if_neg (rstrip_ne_nil_of_nonblank hmb)]

theorem splitlines_strip (x : List Char) :
    splitlines (strip x) = normLines (splitlines x) := by
  unfold strip normLines
  rw [splitlines_lstrip, splitlines_rstrip]

/- ### Decomposition lemmas for normLines, scanTopic and findSubjectIdx -/

theorem normLines_eq_nil_of_all_blank {L : List (List Char)}
    (h : ∀ l ∈ L, isBlank l = true) : normLines L = [] := by
  unfold normLines
  rw [dropTrailB_eq_nil h, modifyLast_nil]
  rfl

theorem normLines_decomp (B : List (List Char)) (subj : List Char) (M : List (List Char))
    (hB : ∀ b ∈ B, isBlank b = true) (hs : isBlank subj = false)
    (hM : ∃ m ∈ M, isBlank m = false) :
    normLines (B ++ subj :: M) = lstrip subj :: modifyLast rstrip (dropTrailB M) := by
  unfold normLines
  rw [dropTrailB_append_of_ex B (subj :: M) ⟨subj, List.mem_cons_self subj M, hs⟩,
    dropTrailB_cons_nonblank subj M hs,
    modifyLast_append rstrip B _ (List.cons_ne_nil subj (dropTrailB M)),
    modifyLast_cons rstrip subj _ (dropTrailB_ne_nil hM)]
  unfold dropLeadB
  rw [List.dropWhile_append]
  have hBdrop : List.dropWhile isBlank B = [] :=
    List.dropWhile_eq_nil_iff.mpr hB
  rw [if_pos (by simp [hBdrop]), List.dropWhile_cons, hs]
  simp

theorem isTopicB_rstrip (x : List Char) : isTopicB (rstrip x) = isTopicB x := by
  unfold isTopicB
  rw [strip_rstrip]

theorem scanTopic_decomp (L : List (List Char)) (h : scanTopic L = true) :
    ∃ N x R, L = N ++ x :: R ∧ (∀ y ∈ N, isBlank y = false ∧ isTopicB y = false) ∧
      isBlank x = false ∧ isTopicB x = true := by
  induction L with
  | nil => cases h
  | cons ln rest ih =>
    cases hb : isBlank ln
    · cases ht : isTopicB ln
      · have h2 : scanTopic rest = true := by
          rw [scanTopic, hb, ht] at h
          simpa using h
        obtain ⟨N, x, R, hdec, hN, hx1, hx2⟩ := ih h2
        refine ⟨ln :: N, x, R, by rw [hdec]; rfl, ?_, hx1, hx2⟩
        intro y hy
        rcases List.mem_cons.mp hy with rfl | h3
        · exact ⟨hb, ht⟩
        · exact hN y h3
      · refine ⟨[], ln, rest, rfl, ?_, hb, ht⟩
        intro y hy
        cases hy
    · rw [scanTopic, hb] at h
      cases h

theorem scanTopic_of_decomp (N : List (List Char)) (x : List Char) (R : List (List Char))
    (hN : ∀ y ∈ N, isBlank y = false ∧ isTopicB y = false)
    (hx1 : isBlank x = false) (hx2 : isTopicB x = true) :
    scanTopic (N ++ x :: R) = true := by
  induction N with
  | nil =>
    rw [List.nil_append, scanTopic, hx1, hx2]
    rfl
  | cons n N' ih =>
    have hn := hN n (List.mem_cons_self n N')
    rw [List.cons_append, scanTopic, hn.1, hn.2]
    simp only [Bool.false_eq_true, if_false]
    exact ih (fun y hy => hN y (List.mem_cons_of_mem n hy))

theorem scanTopic_stable (ds : List (List Char)) (h : scanTopic ds = true) :
    scanTopic (modifyLast rstrip (dropTrailB ds)) = true := by
  obtain ⟨N, x, R, rfl, hN, hx1, hx2⟩ := scanTopic_decomp ds h
  rw [dropTrailB_append_of_ex N (x :: R) ⟨x, List.mem_cons_self x R, hx1⟩,
    dropTrailB_cons_nonblank x R hx1]
  by_cases hR : dropTrailB R = []
  · rw [hR, modifyLast_append rstrip N [x] (by simp), modifyLast_singleton]
    refine scanTopic_of_decomp N (rstrip x) [] hN ?_ ?_
    · rw [isBlank_rstrip]; exact hx1
    · rw [isTopicB_rstrip]; exact hx2
  · rw [modifyLast_append rstrip N _ (List.cons_ne_nil x (dropTrailB R)),
      modifyLast_cons rstrip x _ hR]
    exact scanTopic_of_decomp N x _ hN hx1 hx2

theorem findSubjectIdx_none_iff (L : List (List Char)) :
    findSubjectIdx L = none ↔ ∀ l ∈ L, isBlank l = true := by
  induction L with
  | nil => simp [findSubjectIdx]
  | cons ln rest ih =>
    cases hb : isBlank ln
    · simp [findSubjectIdx, hb]
    · simp [findSubjectIdx, hb, ih]

theorem findSubjectIdx_of_take_getD (L : List (List Char)) (i : Nat)
    (htake : ∀ l ∈ L.take i, isBlank l = true)
    (hget : isBlank (L.getD i []) = false) : findSubjectIdx L = some i := by
  induction L generalizing i with
  | nil =>
    exfalso
    have h1 : ([] : List (List Char)).getD i [] = [] := by simp [List.getD]
    rw [h1, isBlank_nil] at hget
    cases hget
  | cons ln rest ih =>
    cases i with
    | zero =>
      have h1 : (ln :: rest).getD 0 [] = ln := rfl
      rw [h1] at hget
      rw [findSubjectIdx, hget]
      rfl
    | succ j =>
      have hb : isBlank ln = true :=
        htake ln (by rw [List.take_succ_cons]; exact List.mem_cons_self ln _)
      have htake2 : ∀ l ∈ rest.take j, isBlank l = true := by
        intro l hl
        exact htake l (by rw [List.take_succ_cons]; exact List.mem_cons_of_mem ln hl)
      have hget2 : isBlank (rest.getD j []) = false := hget
      rw [findSubjectIdx, hb, ih j htake2 hget2]
      rfl

theorem findSubjectIdx_decomp (L : List (List Char)) (i : Nat)
    (h : findSubjectIdx L = some i) :
    ∃ B subj ds, L = B ++ subj :: ds ∧ B.length = i ∧
      (∀ b ∈ B, isBlank b = true) ∧ isBlank subj = false := by
  induction L generalizing i with
  | nil => cases h
  | cons ln rest ih =>
    cases hb : isBlank ln
    · rw [findSubjectIdx, hb] at h
      simp at h
      refine ⟨[], ln, rest, rfl, h, ?_, hb⟩
      intro b hb2
      cases hb2
    · rw [findSubjectIdx, hb] at h
      simp only [if_true] at h
      rw [Option.map_eq_some'] at h
      obtain ⟨j, hj, hji⟩ := h
      obtain ⟨B, subj, ds, hdec, hlen, hblanks, hsubj⟩ := ih j hj
      refine ⟨ln :: B, subj, ds, by rw [hdec]; rfl, ?_, ?_, hsubj⟩
      · simp [hlen, ← hji]
      · intro b hb2
        rcases List.mem_cons.mp hb2 with rfl | h3
        · exact hb
        · exact hblanks b h3

theorem take_len_succ {α : Type} (B : List α) (x : α) (R : List α) :
    (B ++ x :: R).take (B.length + 1) = B ++ [x] := by
  induction B with
  | nil => rfl
  | cons b B' ih => simp [List.take_cons, ih]

theorem drop_len_succ {α : Type} (B : List α) (x : α) (R : List α) :
    (B ++ x :: R).drop (B.length + 1) = R := by
  induction B with
  | nil => rfl
  | cons b B' ih =>
    simp only [List.cons_append, List.drop_succ_cons]
    exact ih

/- ### Branch equations for ensure_topic_line -/

theorem bool_false_of_not_true {b : Bool} (h : ¬ b = true) : b = false := by
  cases b
  · rfl
  · exact absurd rfl h

theorem ensure_topic_line_of_mt_nil (msg t : List Char) (h : strip t = []) :
    ensure_topic_line msg t = strip msg := by
  simp [ensure_topic_line, h]

theorem ensure_topic_line_of_none (msg t : List Char)
    (hFS : findSubjectIdx (splitlines msg) = none) :
    ensure_topic_line msg t = strip msg := by
  by_cases hmt : strip t = []
  · exact ensure_topic_line_of_mt_nil msg t hmt
  · cases hsp : splitlines msg with
    | nil => simp [ensure_topic_line, hmt, hsp]
    | cons a as =>
      rw [hsp] at hFS
      simp [ensure_topic_line, hmt, hsp, hFS]

theorem ensure_topic_line_of_found (msg t : List Char) (i : Nat) (hmt : ¬ strip t = [])
    (hFS : findSubjectIdx (splitlines msg) = some i)
    (hscan : scanTopic ((splitlines msg).drop (i + 1)) = true) :
    ensure_topic_line msg t = strip msg := by
  have hie : (splitlines msg).isEmpty = false := by
    cases hsp : splitlines msg
    · rw [hsp] at hFS; cases hFS
    · rfl
  simp [ensure_topic_line, hmt, hie, hFS, hscan]

theorem ensure_topic_line_of_insert (msg t : List Char) (i : Nat) (hmt : ¬ strip t = [])
    (hFS : findSubjectIdx (splitlines msg) = some i)
    (hscan : scanTopic ((splitlines msg).drop (i + 1)) = false) :
    ensure_topic_line msg t =
      strip (joinlines ((splitlines msg).take (i + 1)
        ++ [("Topic: ").toList ++ strip t] ++ (splitlines msg).drop (i + 1))) := by
  have hie : (splitlines msg).isEmpty = false := by
    cases hsp : splitlines msg
    · rw [hsp] at hFS; cases hFS
    · rfl
  simp [ensure_topic_line, hmt, hie, hFS, hscan]

theorem scanTopic_head (x : List Char) (R : List (List Char))
    (h1 : isBlank x = false) (h2 : isTopicB x = true) : scanTopic (x :: R) = true := by
  rw [scanTopic, h1, h2]
  rfl

/-- If a message strips to itself, has a non-blank first line, and its tail
block scans positive for a Topic line, then ensure_topic_line leaves it
unchanged. -/
theorem ensure_of_found (r t : List Char) (hr : strip r = r) (s : List Char)
    (E : List (List Char)) (hsp : splitlines r = s :: E) (hs : isBlank s = false)
    (hE : scanTopic E = true) : ensure_topic_line r t = r := by
  by_cases hmt : strip t = []
  · rw [ensure_topic_line_of_mt_nil r t hmt, hr]
  · have hFS : findSubjectIdx (splitlines r) = some 0 := by
      rw [hsp, findSubjectIdx, hs]
      rfl
    have hscan : scanTopic ((splitlines r).drop (0 + 1)) = true := by
      rw [hsp]
      exact hE
    rw [ensure_topic_line_of_found r t 0 hmt hFS hscan, hr]

/- ### Facts about inserted Topic lines -/

theorem topicline_nonblank (q : List Char) :
    isBlank (("Topic: ").toList ++ q) = false := by
  cases hb : isBlank (("Topic: ").toList ++ q)
  · rfl
  · exfalso
    have h := isBlank_iff.mp hb 'T' (List.mem_append_left q (by decide))
    exact absurd h (by decide)

theorem topicline_isTopic (q : List Char) :
    isTopicB (("Topic: ").toList ++ q) = true := by
  unfold isTopicB strip
  rw [rstrip_append]
  by_cases hq : rstrip q = []
  · rw [if_pos hq]
    decide
  · rw [if_neg hq]
    have hT : lstrip (("Topic: ").toList ++ rstrip q) = ("Topic: ").toList ++ rstrip q := by
      show lstrip ('T' :: (("opic: ").toList ++ rstrip q)) = _
      rw [lstrip_cons_of_not _ (by decide)]
      rfl
    rw [hT, List.isPrefixOf_iff_prefix]
    unfold lower
    rw [List.map_append]
    have h1 : List.map Char.toLower (("Topic: ").toList) = ("topic: ").toList := by decide
    rw [h1]
    have h2 : ("topic: ").toList = ("topic:").toList ++ [' '] := by decide
    rw [h2, List.append_assoc]
    exact List.prefix_append _ _

theorem splitlines_join_topic (t' : List Char) (ds : List (List Char)) :
    ∃ q Q, splitlines (joinlines ((("Topic: ").toList ++ t') :: ds))
      = (("Topic: ").toList ++ q) :: Q := by
  have hp1 : '\n' ∉ ("Topic: ").toList := by decide
  have hp2 : ("Topic: ").toList ≠ [] := by decide
  cases ds with
  | nil =>
    rw [joinlines_singleton]
    exact ⟨(splitlines t').headD [], (splitlines t').tail,
      splitlines_append_headD (("Topic: ").toList) t' hp1 hp2⟩
  | cons d ds' =>
    rw [joinlines_cons_cons, List.append_assoc]
    exact ⟨_, _, splitlines_append_headD (("Topic: ").toList)
      (t' ++ '\n' :: joinlines (d :: ds')) hp1 hp2⟩

/-- C6 — ensure_topic_line is idempotent: for every message and every manual
topic, applying it twice with the same topic yields the same result as
applying it once. -/
theorem ensure_topic_line_idem (msg t : List Char) :
    ensure_topic_line (ensure_topic_line msg t) t = ensure_topic_line msg t := by
  by_cases hmt : strip t = []
  · rw [ensure_topic_line_of_mt_nil msg t hmt,
      ensure_topic_line_of_mt_nil (strip msg) t hmt, strip_idem]
  · rcases hFS : findSubjectIdx (splitlines msg) with _ | i
    · have hall : ∀ l ∈ splitlines msg, isBlank l = true :=
        (findSubjectIdx_none_iff _).mp hFS
      have hmsg : strip msg = [] := strip_eq_nil_of_all_blank msg hall
      rw [ensure_topic_line_of_none msg t hFS, hmsg,
        ensure_topic_line_of_none [] t rfl, strip_nil]
    · obtain ⟨B, subj, ds, hLdec, hBlen, hBblank, hsubjnb⟩ :=
        findSubjectIdx_decomp _ i hFS
      have htake : (splitlines msg).take (i + 1) = B ++ [subj] := by
        rw [hLdec, ← hBlen]
        exact take_len_succ B subj ds
      have hdrop : (splitlines msg).drop (i + 1) = ds := by
        rw [hLdec, ← hBlen]
        exact drop_len_succ B subj ds
      by_cases hscan : scanTopic ((splitlines msg).drop (i + 1)) = true
      · have h1 : ensure_topic_line msg t = strip msg :=
          ensure_topic_line_of_found msg t i hmt hFS hscan
        have hscands : scanTopic ds = true := by
          rw [← hdrop]
          exact hscan
        have hM : ∃ m ∈ ds, isBlank m = false := by
          obtain ⟨N, x, R, hdec, hN, hx1, hx2⟩ := scanTopic_decomp ds hscands
          exact ⟨x, by rw [hdec]; exact List.mem_append_right N (List.mem_cons_self x R), hx1⟩
        have hsplit : splitlines (strip msg) =
            lstrip subj :: modifyLast rstrip (dropTrailB ds) := by
          rw [splitlines_strip, hLdec]
          exact normLines_decomp B subj ds hBblank hsubjnb hM
        rw [h1]
        exact ensure_of_found (strip msg) t (strip_idem msg) _ _ hsplit
          (by rw [isBlank_lstrip]; exact hsubjnb) (scanTopic_stable ds hscands)
      · have hscanF : scanTopic ((splitlines msg).drop (i + 1)) = false :=
          bool_false_of_not_true hscan
        have h1 := ensure_topic_line_of_insert msg t i hmt hFS hscanF
        rw [htake, hdrop] at h1
        have hL' : (B ++ [subj]) ++ [("Topic: ").toList ++ strip t] ++ ds
            = (B ++ [subj]) ++ ((("Topic: ").toList ++ strip t) :: ds) := by
          simp
        rw [hL'] at h1
        have hAne : B ++ [subj] ≠ [] := by simp
        have hAnl : ∀ l ∈ B ++ [subj], '\n' ∉ l := by
          intro l hl
          apply not_newline_mem_splitlines msg
          rw [hLdec]
          rcases List.mem_append.mp hl with h2 | h2
          · exact List.mem_append_left _ h2
          · rcases List.mem_cons.mp h2 with rfl | h3
            · exact List.mem_append_right B (List.mem_cons_self l ds)
            · cases h3
        obtain ⟨q, Q, hTQ⟩ := splitlines_join_topic (strip t) ds
        have hJsplit : splitlines (joinlines ((B ++ [subj])
            ++ ((("Topic: ").toList ++ strip t) :: ds)))
            = B ++ subj :: (("Topic: ").toList ++ q) :: Q := by
          rw [joinlines_append _ _ hAne (List.cons_ne_nil _ _),
            splitlines_joinlines_append _ _ hAnl hAne, hTQ]
          simp
        have htopicnb : isBlank (("Topic: ").toList ++ q) = false := topicline_nonblank q
        have hnorm : splitlines (strip (joinlines ((B ++ [subj])
            ++ ((("Topic: ").toList ++ strip t) :: ds))))
            = lstrip subj :: modifyLast rstrip
                (dropTrailB ((("Topic: ").toList ++ q) :: Q)) := by
          rw [splitlines_strip, hJsplit]
          exact normLines_decomp B subj _ hBblank hsubjnb
            ⟨_, List.mem_cons_self _ _, htopicnb⟩
        have hE : scanTopic (modifyLast rstrip
            (dropTrailB ((("Topic: ").toList ++ q) :: Q))) = true := by
          rw [dropTrailB_cons_nonblank _ Q htopicnb]
          by_cases hQ : dropTrailB Q = []
          · rw [hQ, modifyLast_singleton]
            exact scanTopic_head _ []
              (by rw [isBlank_rstrip]; exact htopicnb)
              (by rw [isTopicB_rstrip]; exact topicline_isTopic q)
          · rw [modifyLast_cons rstrip _ _ hQ]
            exact scanTopic_head _ _ htopicnb (topicline_isTopic q)
        rw [h1]
        exact ensure_of_found _ t (strip_idem _) _ _ hnorm
          (by rw [isBlank_lstrip]; exact hsubjnb) hE

/- ### Header, content and marker line classification -/

theorem isPrefixOf_weaken {p q l : List Char} (h : List.isPrefixOf p l = true)
    (hp : q <+: p) : List.isPrefixOf q l = true := by
  rw [List.isPrefixOf_iff_prefix] at h ⊢
  exact hp.trans h

theorem head_eq_of_isPrefixOf {c : Char} {p l : List Char}
    (h : List.isPrefixOf (c :: p) l = true) : ∃ u, l = c :: u := by
  rw [List.isPrefixOf_iff_prefix] at h
  obtain ⟨u, rfl⟩ := h
  exact ⟨p ++ u, rfl⟩

theorem isPrefixOf_single_cons (a c : Char) (u : List Char) :
    List.isPrefixOf [a] (c :: u) = (a == c) := by
  simp [List.isPrefixOf]

theorem isPrefixOf_cons_ne {a c : Char} (p u : List Char) (h : a ≠ c) :
    List.isPrefixOf (a :: p) (c :: u) = false := by
  cases hp : List.isPrefixOf (a :: p) (c :: u)
  · rfl
  · exfalso
    obtain ⟨v, hv⟩ := head_eq_of_isPrefixOf hp
    cases hv
    exact h rfl

theorem content_false_of_head {c : Char} (u : List Char) (h1 : c ≠ '+') (h2 : c ≠ '-') :
    isContentLine (c :: u) = false := by
  unfold isContentLine
  rw [isPrefixOf_single_cons, isPrefixOf_single_cons]
  have e1 : ('+' == c) = false := by
    cases he : ('+' == c)
    · rfl
    · exact absurd (beq_iff_eq.mp he).symm h1
  have e2 : ('-' == c) = false := by
    cases he : ('-' == c)
    · rfl
    · exact absurd (beq_iff_eq.mp he).symm h2
  rw [e1, e2]
  rfl

theorem isContent_false_of_header {l : List Char} (h : isHeaderLine l = true) :
    isContentLine l = false := by
  unfold isHeaderLine at h
  simp only [Bool.or_eq_true] at h
  rcases h with ((((h1 | h2) | h3) | h4) | h5)
  · have h1d : List.isPrefixOf ('d' :: ("iff --git ").toList) l = true := h1
    obtain ⟨u, rfl⟩ := head_eq_of_isPrefixOf h1d
    exact content_false_of_head u (by decide) (by decide)
  · have h2i : List.isPrefixOf ('i' :: ("ndex ").toList) l = true := h2
    obtain ⟨u, rfl⟩ := head_eq_of_isPrefixOf h2i
    exact content_false_of_head u (by decide) (by decide)
  · have h3w : List.isPrefixOf (("---").toList) l = true :=
      isPrefixOf_weaken h3 ⟨[' '], rfl⟩
    unfold isContentLine
    rw [h3w]
    simp
  · have h4w : List.isPrefixOf (("+++").toList) l = true :=
      isPrefixOf_weaken h4 ⟨[' '], rfl⟩
    unfold isContentLine
    rw [h4w]
    simp
  · have h5a : List.isPrefixOf ('@' :: ("@").toList) l = true := h5
    obtain ⟨u, rfl⟩ := head_eq_of_isPrefixOf h5a
    exact content_false_of_head u (by decide) (by decide)

theorem ne_nil_of_header {l : List Char} (h : isHeaderLine l = true) : l ≠ [] := by
  intro hl
  rw [hl] at h
  rw [show isHeaderLine [] = false from by decide] at h
  cases h

theorem ne_nil_of_content {l : List Char} (h : isContentLine l = true) : l ≠ [] := by
  intro hl
  rw [hl] at h
  rw [show isContentLine [] = false from by decide] at h
  cases h

theorem digitChar_ne_newline (d : Nat) : digitChar d ≠ '\n' := by
  unfold digitChar
  split <;> decide

theorem natCharsAux_ne_newline (fuel : Nat) : ∀ (n : Nat), ∀ c ∈ natCharsAux fuel n, c ≠ '\n' := by
  induction fuel with
  | zero => intro n c hc; cases hc
  | succ f ih =>
    intro n c hc
    rw [natCharsAux] at hc
    by_cases h : n < 10
    · rw [if_pos h] at hc
      rcases List.mem_singleton.mp hc with rfl
      exact digitChar_ne_newline n
    · rw [if_neg h] at hc
      rcases List.mem_append.mp hc with h1 | h2
      · exact ih (n / 10) c h1
      · rcases List.mem_singleton.mp h2 with rfl
        exact digitChar_ne_newline (n % 10)

theorem localMarker_cons (m : Nat) :
    localMarker m = '[' :: ((("... truncated after ").toList ++ natChars m)
      ++ (" changed lines ...]").toList) := rfl

theorem localMarker_no_newline (m : Nat) : '\n' ∉ localMarker m := by
  unfold localMarker
  intro hc
  rcases List.mem_append.mp hc with h1 | h2
  · rcases List.mem_append.mp h1 with h3 | h4
    · exact absurd h3 (by decide)
    · exact natCharsAux_ne_newline _ _ '\n' h4 rfl
  · exact absurd h2 (by decide)

theorem localMarker_ne_nil (m : Nat) : localMarker m ≠ [] := by
  rw [localMarker_cons]
  exact List.cons_ne_nil _ _

theorem isContentLine_localMarker (m : Nat) : isContentLine (localMarker m) = false := by
  rw [localMarker_cons]
  exact content_false_of_head _ (by decide) (by decide)

theorem truncMarker_no_newline (m : Nat) : '\n' ∉ truncMarker m := by
  unfold truncMarker
  intro hc
  rcases List.mem_append.mp hc with h1 | h2
  · rcases List.mem_append.mp h1 with h3 | h4
    · exact absurd h3 (by decide)
    · exact natCharsAux_ne_newline _ _ '\n' h4 rfl
  · exact absurd h2 (by decide)

theorem truncMarker_ne_nil (m : Nat) : truncMarker m ≠ [] := by
  have h : truncMarker m = '[' :: ((("... truncated ").toList ++ natChars m)
      ++ (" diff lines ...]").toList) := rfl
  rw [h]
  exact List.cons_ne_nil _ _

/- ### The simplify loop, restructured by line class -/

theorem simplifyLoop_cons (maxc : Nat) (line : List Char) (rest : List (List Char))
    (changed : Nat) :
    simplifyLoop maxc (line :: rest) changed =
      if isHeaderLine line then line :: simplifyLoop maxc rest changed
      else if isContentLine line then
        (if changed + 1 ≥ maxc then [line, [], localMarker maxc]
          else line :: simplifyLoop maxc rest (changed + 1))
      else simplifyLoop maxc rest changed := by
  rw [simplifyLoop]
  by_cases h1 : List.isPrefixOf (("diff --git ").toList) line = true
  · have hH : isHeaderLine line = true := by
      unfold isHeaderLine
      rw [h1]
      rfl
    rw [if_pos h1, if_pos hH]
  · by_cases h2 : (List.isPrefixOf (("index ").toList) line
        || List.isPrefixOf (("--- ").toList) line
        || List.isPrefixOf (("+++ ").toList) line) = true
    · have hH : isHeaderLine line = true := by
        simp only [Bool.or_eq_true] at h2
        unfold isHeaderLine
        simp only [Bool.or_eq_true]
        rcases h2 with (h | h) | h
        · exact Or.inl (Or.inl (Or.inl (Or.inr h)))
        · exact Or.inl (Or.inl (Or.inr h))
        · exact Or.inl (Or.inr h)
      rw [if_neg h1, if_pos h2, if_pos hH]
    · by_cases h3 : List.isPrefixOf (("@@").toList) line = true
      · have hH : isHeaderLine line = true := by
          unfold isHeaderLine
          simp only [Bool.or_eq_true]
          exact Or.inr h3
        rw [if_neg h1, if_neg h2, if_pos h3, if_pos hH]
      · have hH : isHeaderLine line = false := by
          apply bool_false_of_not_true
          unfold isHeaderLine
          simp only [Bool.or_eq_true] at h2 ⊢
          push_neg at h2
          intro hcon
          rcases hcon with ((((h | h) | h) | h) | h)
          · exact h1 h
          · exact h2.1.1 h
          · exact h2.1.2 h
          · exact h2.2 h
          · exact h3 h
        by_cases h4 : ((List.isPrefixOf (['+']) line || List.isPrefixOf (['-']) line)
            && !(List.isPrefixOf (("+++").toList) line
              || List.isPrefixOf (("---").toList) line)) = true
        · have hC : isContentLine line = true := h4
          have hHn : ¬ (isHeaderLine line = true) := by simp [hH]
          rw [if_neg h1, if_neg h2, if_neg h3, if_pos h4, if_neg hHn, if_pos hC]
        · have hC : isContentLine line = false := bool_false_of_not_true h4
          have hHn : ¬ (isHeaderLine line = true) := by simp [hH]
          have hCn : ¬ (isContentLine line = true) := by simp [hC]
          rw [if_neg h1, if_neg h2, if_neg h3, if_neg h4, if_neg hHn, if_neg hCn]

theorem countContent_nil : countContent [] = 0 := rfl

theorem countContent_cons (l : List Char) (L : List (List Char)) :
    countContent (l :: L) = countContent L + (if isContentLine l = true then 1 else 0) :=
  List.countP_cons _ _ _

theorem countContent_simplifyLoop (maxc : Nat) (lines : List (List Char)) :
    ∀ changed, changed < maxc →
      countContent (simplifyLoop maxc lines changed) ≤ maxc - changed := by
  induction lines with
  | nil =>
    intro changed _
    rw [simplifyLoop, countContent_nil]
    omega
  | cons line rest ih =>
    intro changed hch
    rw [simplifyLoop_cons]
    by_cases hH : isHeaderLine line = true
    · rw [if_pos hH, countContent_cons, isContent_false_of_header hH]
      have h := ih changed hch
      simp
      omega
    · by_cases hC : isContentLine line = true
      · rw [if_neg hH, if_pos hC]
        by_cases hbreak : changed + 1 ≥ maxc
        · rw [if_pos hbreak, countContent_cons, countContent_cons, countContent_cons,
            countContent_nil, hC, isContentLine_localMarker,
            show isContentLine [] = false from by decide]
          simp
          omega
        · rw [if_neg hbreak, countContent_cons, hC]
          have h := ih (changed + 1) (by omega)
          simp
          omega
      · rw [if_neg hH, if_neg hC]
        exact ih changed hch

theorem headers_simplifyLoop (maxc : Nat) (lines : List (List Char)) :
    ∀ changed, changed < maxc →
      ((takeToContent (maxc - changed) lines).filter isHeaderLine).Sublist
        (simplifyLoop maxc lines changed) := by
  induction lines with
  | nil =>
    intro changed _
    rw [simplifyLoop, takeToContent]
    simp
  | cons line rest ih =>
    intro changed hch
    rw [simplifyLoop_cons, takeToContent]
    by_cases hH : isHeaderLine line = true
    · rw [if_pos hH, if_neg (by simp [isContent_false_of_header hH]),
        List.filter_cons_of_pos hH]
      exact List.Sublist.cons₂ line (ih changed hch)
    · have hHf : isHeaderLine line = false := bool_false_of_not_true hH
      by_cases hC : isContentLine line = true
      · rw [if_pos hC]
        by_cases hbreak : changed + 1 ≥ maxc
        · have hk : maxc - changed ≤ 1 := by omega
          rw [if_pos hk, if_neg hH, if_pos hC, if_pos hbreak,
            List.filter_cons_of_neg (by simp [hHf]), List.filter_nil]
          exact List.nil_sublist _
        · have hk : ¬ (maxc - changed ≤ 1) := by omega
          rw [if_neg hk, if_neg hH, if_pos hC, if_neg hbreak,
            List.filter_cons_of_neg (by simp [hHf])]
          have h2 : maxc - changed - 1 = maxc - (changed + 1) := by omega
          rw [h2]
          exact List.Sublist.cons line (ih (changed + 1) (by omega))
      · rw [if_neg hC, if_neg hH, if_neg hC, List.filter_cons_of_neg (by simp [hHf])]
        exact ih changed hch

theorem simplifyLoop_no_newline (maxc : Nat) (lines : List (List Char)) :
    ∀ changed, (∀ l ∈ lines, '\n' ∉ l) →
      ∀ l ∈ simplifyLoop maxc lines changed, '\n' ∉ l := by
  induction lines with
  | nil =>
    intro changed _ l hl
    rw [simplifyLoop] at hl
    cases hl
  | cons line rest ih =>
    intro changed hnl l hl
    rw [simplifyLoop_cons] at hl
    have hline := hnl line (List.mem_cons_self line rest)
    have hrest : ∀ x ∈ rest, '\n' ∉ x := fun x hx => hnl x (List.mem_cons_of_mem line hx)
    by_cases hH : isHeaderLine line = true
    · rw [if_pos hH] at hl
      rcases List.mem_cons.mp hl with rfl | h2
      · exact hline
      · exact ih changed hrest l h2
    · by_cases hC : isContentLine line = true
      · rw [if_neg hH, if_pos hC] at hl
        by_cases hbreak : changed + 1 ≥ maxc
        · rw [if_pos hbreak] at hl
          rcases List.mem_cons.mp hl with rfl | h2
          · exact hline
          · rcases List.mem_cons.mp h2 with rfl | h3
            · simp
            · rcases List.mem_singleton.mp h3 with rfl
              exact localMarker_no_newline maxc
        · rw [if_neg hbreak] at hl
          rcases List.mem_cons.mp hl with rfl | h2
          · exact hline
          · exact ih (changed + 1) hrest l h2
      · rw [if_neg hH, if_neg hC] at hl
        exact ih changed hrest l hl

theorem simplifyLoop_getLast (maxc : Nat) (lines : List (List Char)) :
    ∀ changed, (simplifyLoop maxc lines changed).getLast? ≠ some [] := by
  induction lines with
  | nil =>
    intro changed
    rw [simplifyLoop]
    simp
  | cons line rest ih =>
    intro changed
    rw [simplifyLoop_cons]
    by_cases hH : isHeaderLine line = true
    · rw [if_pos hH, List.getLast?_cons]
      intro hcon
      simp only [Option.some.injEq] at hcon
      cases hX : (simplifyLoop maxc rest changed).getLast? with
      | none =>
        rw [hX] at hcon
        simp at hcon
        exact ne_nil_of_header hH hcon
      | some z =>
        rw [hX] at hcon
        simp at hcon
        apply ih changed
        rw [hX, hcon]
    · by_cases hC : isContentLine line = true
      · rw [if_neg hH, if_pos hC]
        by_cases hbreak : changed + 1 ≥ maxc
        · rw [if_pos hbreak]
          show ([line, []] ++ [localMarker maxc]).getLast? ≠ some []
          rw [List.getLast?_concat]
          intro hcon
          simp only [Option.some.injEq] at hcon
          exact localMarker_ne_nil maxc hcon
        · rw [if_neg hbreak, List.getLast?_cons]
          intro hcon
          simp only [Option.some.injEq] at hcon
          cases hX : (simplifyLoop maxc rest (changed + 1)).getLast? with
          | none =>
            rw [hX] at hcon
            simp at hcon
            exact ne_nil_of_content hC hcon
          | some z =>
            rw [hX] at hcon
            simp at hcon
            apply ih (changed + 1)
            rw [hX, hcon]
      · rw [if_neg hH, if_neg hC]
        exact ih changed

theorem simplify_splitlines (d : List Char) (maxc : Nat) :
    splitlines (simplify_diff_for_local d maxc) = simplifyLoop maxc (splitlines d) 0 := by
  unfold simplify_diff_for_local
  exact splitlines_joinlines _
    (simplifyLoop_no_newline maxc _ 0 (not_newline_mem_splitlines d))
    (simplifyLoop_getLast maxc _ 0)

theorem marker_suffix_simplifyLoop (maxc : Nat) (lines : List (List Char)) :
    ∀ changed, changed < maxc → maxc - changed ≤ countContent lines →
      [[], localMarker maxc] <:+ simplifyLoop maxc lines changed := by
  induction lines with
  | nil =>
    intro changed h1 h2
    exfalso
    rw [countContent_nil] at h2
    omega
  | cons line rest ih =>
    intro changed h1 h2
    rw [simplifyLoop_cons]
    rw [countContent_cons] at h2
    by_cases hH : isHeaderLine line = true
    · rw [if_pos hH]
      rw [isContent_false_of_header hH] at h2
      simp at h2
      exact (ih changed h1 (by omega)).trans (List.suffix_cons line _)
    · by_cases hC : isContentLine line = true
      · rw [if_neg hH, if_pos hC]
        by_cases hbreak : changed + 1 ≥ maxc
        · rw [if_pos hbreak]
          exact ⟨[line], rfl⟩
        · rw [if_neg hbreak]
          rw [hC] at h2
          simp at h2
          exact (ih (changed + 1) (by omega) (by omega)).trans (List.suffix_cons line _)
      · rw [if_neg hH, if_neg hC]
        rw [bool_false_of_not_true hC] at h2
        simp at h2
        exact ih changed h1 (by omega)

/- ### Claim theorems -/

/-- Spec-side: drop at most one leading fully-blank line from the body. -/
def dropOneBlank : List (List Char) → List (List Char)
  | [] => []
  | b :: rest => if isBlank b then rest else b :: rest

/-- C2 — truncate_diff: on a diff of at most `limit` lines the input text is
returned unchanged with truncated = false and total = kept = number of lines;
on a longer diff the returned text consists of exactly the first `limit`
input lines followed by an empty line and the omission marker naming the
number of omitted lines, with truncated = true, total the input line count
and kept = limit. -/
theorem truncate_diff_spec (limit : Nat) (d : List Char) :
    ((splitlines d).length ≤ limit →
      truncate_diff limit d = (d, false, (splitlines d).length, (splitlines d).length)) ∧
    (limit < (splitlines d).length →
      (truncate_diff limit d).2.1 = true ∧
      (truncate_diff limit d).2.2.1 = (splitlines d).length ∧
      (truncate_diff limit d).2.2.2 = limit ∧
      splitlines (truncate_diff limit d).1 =
        (splitlines d).take limit
          ++ [[], truncMarker ((splitlines d).length - limit)]) := by
  constructor
  · intro h
    unfold truncate_diff
    rw [if_pos h]
  · intro h
    have hn : ¬ ((splitlines d).length ≤ limit) := by omega
    unfold truncate_diff
    rw [if_neg hn]
    refine ⟨rfl, rfl, rfl, ?_⟩
    apply splitlines_joinlines
    · intro l hl
      rcases List.mem_append.mp hl with h1 | h2
      · exact not_newline_mem_splitlines d l (List.mem_of_mem_take h1)
      · rcases List.mem_cons.mp h2 with rfl | h3
        · simp
        · rcases List.mem_singleton.mp h3 with rfl
          exact truncMarker_no_newline _
    · have he : (splitlines d).take limit
          ++ [[], truncMarker ((splitlines d).length - limit)]
          = ((splitlines d).take limit ++ [[]])
            ++ [truncMarker ((splitlines d).length - limit)] := by simp
      rw [he, List.getLast?_concat]
      intro hcon
      simp only [Option.some.injEq] at hcon
      exact truncMarker_ne_nil _ hcon

/-- Witness for C2 at two concrete diffs: a 2-line diff under a limit of 10
is returned unchanged, and a 4-line diff under a limit of 2 is cut to its
first two lines plus the two marker lines. -/
theorem truncate_diff_spec_witness :
    truncate_diff 10 (("a\nb").toList) = (("a\nb").toList, false, 2, 2) ∧
    (truncate_diff 2 (("a\nb\nc\nd").toList)).2.1 = true ∧
    splitlines (truncate_diff 2 (("a\nb\nc\nd").toList)).1 =
      [("a").toList, ("b").toList, [], truncMarker 2] := by
  refine ⟨?_, ?_, ?_⟩
  · have h := (truncate_diff_spec 10 (("a\nb").toList)).1 (by decide)
    rw [h]
    decide
  · exact ((truncate_diff_spec 2 (("a\nb\nc\nd").toList)).2 (by decide)).1
  · have h := ((truncate_diff_spec 2 (("a\nb\nc\nd").toList)).2 (by decide)).2.2.2
    rw [h]
    decide

/-- C7 — every DiffDigest produced by truncate_diff satisfies the invariant:
keptLines is at most totalLines, and the truncated flag holds exactly when
keptLines is strictly below totalLines. -/
theorem truncate_diff_invariant (limit : Nat) (d : List Char) :
    (truncate_diff limit d).2.2.2 ≤ (truncate_diff limit d).2.2.1 ∧
    (truncate_diff limit d).2.1 =
      decide ((truncate_diff limit d).2.2.2 < (truncate_diff limit d).2.2.1) := by
  unfold truncate_diff
  by_cases h : (splitlines d).length ≤ limit
  · rw [if_pos h]
    refine ⟨le_refl _, ?_⟩
    simp
  · rw [if_neg h]
    constructor
    · show limit ≤ (splitlines d).length
      omega
    · show true = decide (limit < (splitlines d).length)
      have hlt : limit < (splitlines d).length := by omega
      rw [decide_eq_true hlt]

/-- C1 counterexample — the sparse digest does not always contain every
header line of the input: with limit 1, a header line that comes after the
truncation point is dropped from the output. -/
theorem simplify_headers_claim_cex :
    ¬ (((splitlines (("+a\ndiff --git b").toList)).filter isHeaderLine).Sublist
        (splitlines (simplify_diff_for_local (("+a\ndiff --git b").toList) 1))) := by
  have h1 : (splitlines (("+a\ndiff --git b").toList)).filter isHeaderLine
      = [("diff --git b").toList] := by decide
  have h2 : splitlines (simplify_diff_for_local (("+a\ndiff --git b").toList) 1)
      = [("+a").toList, [], localMarker 1] := by decide
  rw [h1, h2, List.singleton_sublist]
  decide

/-- C1 (amended) — for every diff and positive limit, the sparse digest
output contains at most maxChangedLines added/removed content lines, and it
contains every file-header and hunk-header line that occurs up to (and
including the position of) the maxChangedLines-th content line of the input,
in their original relative order. -/
theorem simplify_headers_bounded (d : List Char) (maxc : Nat) (h : 0 < maxc) :
    countContent (splitlines (simplify_diff_for_local d maxc)) ≤ maxc ∧
    ((takeToContent maxc (splitlines d)).filter isHeaderLine).Sublist
      (splitlines (simplify_diff_for_local d maxc)) := by
  rw [simplify_splitlines]
  constructor
  · have h2 := countContent_simplifyLoop maxc (splitlines d) 0 h
    simpa using h2
  · have h2 := headers_simplifyLoop maxc (splitlines d) 0 h
    simpa using h2

/-- Witness for the amended C1 at a concrete diff with limit 2. -/
theorem simplify_headers_bounded_witness :
    countContent (splitlines
      (simplify_diff_for_local (("diff --git a\n+x\n-y\nctx\n@@ h\n+z").toList) 2)) ≤ 2 ∧
    ((takeToContent 2 (splitlines (("diff --git a\n+x\n-y\nctx\n@@ h\n+z").toList))).filter
        isHeaderLine).Sublist
      (splitlines (simplify_diff_for_local (("diff --git a\n+x\n-y\nctx\n@@ h\n+z").toList) 2)) :=
  simplify_headers_bounded (("diff --git a\n+x\n-y\nctx\n@@ h\n+z").toList) 2 (by decide)

/-- C10 — as soon as the input contains at least maxChangedLines (positive)
added/removed content lines, the sparse digest ends with the empty line and
the one-line truncation marker; this happens even when no input lines follow
the last kept content line, so the marker can appear although zero lines
were omitted. -/
theorem simplify_marker_applied (d : List Char) (maxc : Nat) (h1 : 0 < maxc)
    (h2 : maxc ≤ countContent (splitlines d)) :
    [[], localMarker maxc] <:+ splitlines (simplify_diff_for_local d maxc) := by
  rw [simplify_splitlines]
  exact marker_suffix_simplifyLoop maxc (splitlines d) 0 h1 (by omega)

/-- Witness for C10: a diff that is exactly one content line, with limit 1 —
the marker is appended although nothing was omitted. -/
theorem simplify_marker_applied_witness :
    1 ≤ countContent (splitlines (("+a").toList)) ∧
    splitlines (simplify_diff_for_local (("+a").toList) 1)
      = [("+a").toList, [], localMarker 1] ∧
    [[], localMarker 1] <:+ splitlines (simplify_diff_for_local (("+a").toList) 1) :=
  ⟨by decide, by decide, simplify_marker_applied (("+a").toList) 1 (by decide) (by decide)⟩

/-- C3 — the subject/body split performed by main: when every line is blank
the split fails with exit code 1 (EmptyOutputError); when the first non-blank
line is at index i, the subject is that line verbatim and the body is the
remaining lines with at most one leading fully-blank line removed and the
newline-joined result right-stripped. -/
theorem split_message_spec (msg : List Char) :
    ((∀ l ∈ splitlines msg, isBlank l = true) → split_message msg = Except.error 1) ∧
    (∀ i, (∀ l ∈ (splitlines msg).take i, isBlank l = true) →
      isBlank ((splitlines msg).getD i []) = false →
      split_message msg = Except.ok ((splitlines msg).getD i [],
        rstrip (joinlines (dropOneBlank ((splitlines msg).drop (i + 1)))))) := by
  constructor
  · intro h
    unfold split_message
    dsimp only
    rw [(findSubjectIdx_none_iff _).mpr h]
  · intro i htake hget
    unfold split_message
    dsimp only
    rw [findSubjectIdx_of_take_getD _ i htake hget]
    dsimp only
    cases hd : (splitlines msg).drop (i + 1) with
    | nil => rfl
    | cons b rest => rfl

/-- Witness for C3 at the specification example. -/
theorem split_message_spec_witness :
    isBlank ((splitlines (("Subject line\n\nCHANGES:\n- a\n\nFiles changed:\n- x").toList)).getD
      0 []) = false ∧
    split_message (("Subject line\n\nCHANGES:\n- a\n\nFiles changed:\n- x").toList)
      = Except.ok (("Subject line").toList, ("CHANGES:\n- a\n\nFiles changed:\n- x").toList) := by
  refine ⟨by decide, ?_⟩
  have h := (split_message_spec
    (("Subject line\n\nCHANGES:\n- a\n\nFiles changed:\n- x").toList)).2 0
    (by decide) (by decide)
  rw [h]
  decide

/-- C4 counterexample — ensure_topic_line does not return the message with
only a Topic line inserted: it also strips the result, so a message starting
with a blank line loses that line. -/
theorem ensure_topic_insert_cex :
    ensure_topic_line (("\nSubject").toList) (("T1").toList)
      ≠ insertTopicAfterSubject (("\nSubject").toList) (("T1").toList) := by
  decide

/-- C4 (amended) — for every message whose first non-blank line is at index
i, and every manual topic that is non-empty after stripping, if no Topic
line appears in the contiguous non-blank block after the subject then
ensure_topic_line returns the message with the line "Topic: " followed by
the stripped topic inserted directly after the subject line, the whole
joined result stripped of leading and trailing whitespace. -/
theorem ensure_topic_line_insert_spec (msg t : List Char) (i : Nat)
    (hmt : strip t ≠ [])
    (htake : ∀ l ∈ (splitlines msg).take i, isBlank l = true)
    (hget : isBlank ((splitlines msg).getD i []) = false)
    (hscan : scanTopic ((splitlines msg).drop (i + 1)) = false) :
    ensure_topic_line msg t =
      strip (joinlines ((splitlines msg).take (i + 1)
        ++ [("Topic: ").toList ++ strip t] ++ (splitlines msg).drop (i + 1))) :=
  ensure_topic_line_of_insert msg t i hmt
    (findSubjectIdx_of_take_getD _ i htake hget) hscan

/-- Witness for the amended C4 at the specification example:
ensureTopic("Subject\n\nBody", "T1") = "Subject\nTopic: T1\n\nBody". -/
theorem ensure_topic_line_insert_spec_witness :
    strip (("T1").toList) ≠ [] ∧
    scanTopic ((splitlines (("Subject\n\nBody").toList)).drop 1) = false ∧
    ensure_topic_line (("Subject\n\nBody").toList) (("T1").toList)
      = ("Subject\nTopic: T1\n\nBody").toList := by
  refine ⟨by decide, by decide, ?_⟩
  have h := ensure_topic_line_insert_spec (("Subject\n\nBody").toList) (("T1").toList) 0
    (by decide) (by decide) (by decide) (by decide)
  rw [h]
  decide

/-- C5 counterexample — with an empty manual topic, ensure_topic_line is not
the identity: it strips the message, so a trailing newline is removed. -/
theorem ensure_topic_noop_cex :
    ensure_topic_line (("Subject\n").toList) ([]) ≠ ("Subject\n").toList := by
  decide

/-- C5 (amended) — ensure_topic_line returns the message stripped of leading
and trailing whitespace (but otherwise unchanged) whenever the manual topic
strips to empty, and likewise whenever a Topic line already appears among
the contiguous non-blank lines immediately after the subject line. -/
theorem ensure_topic_line_noop_spec (msg t : List Char) :
    (strip t = [] → ensure_topic_line msg t = strip msg) ∧
    (∀ i, (∀ l ∈ (splitlines msg).take i, isBlank l = true) →
      isBlank ((splitlines msg).getD i []) = false →
      scanTopic ((splitlines msg).drop (i + 1)) = true →
      ensure_topic_line msg t = strip msg) := by
  constructor
  · exact fun h => ensure_topic_line_of_mt_nil msg t h
  · intro i htake hget hscan
    by_cases hmt : strip t = []
    · exact ensure_topic_line_of_mt_nil msg t hmt
    · exact ensure_topic_line_of_found msg t i hmt
        (findSubjectIdx_of_take_getD _ i htake hget) hscan

/-- Witness for the amended C5: an empty topic and an already-present Topic
line both leave the (stripped) message unchanged. -/
theorem ensure_topic_line_noop_spec_witness :
    ensure_topic_line (("Subject\nBody\n").toList) ([]) = ("Subject\nBody").toList ∧
    ensure_topic_line (("Subject\nTopic: X\nBody").toList) (("T2").toList)
      = ("Subject\nTopic: X\nBody").toList := by
  constructor
  · have h := (ensure_topic_line_noop_spec (("Subject\nBody\n").toList) ([])).1 (by decide)
    rw [h]
    decide
  · have h := (ensure_topic_line_noop_spec (("Subject\nTopic: X\nBody").toList)
      (("T2").toList)).2 0 (by decide) (by decide) (by decide)
    rw [h]
    decide

/-- C8 — when the staged diff is empty or whitespace-only, the commit flow
exits with code 1 before any reduction, prompt build or backend invocation;
in particular no backend call is made on either path. -/
theorem commit_flow_empty_diff (maxD maxL : Nat) (useLocal : Bool) (apiKey : List Char)
    (diff : List Char) (files : List (List Char)) (mm : List Char)
    (h : strip diff = []) :
    commit_flow maxD maxL useLocal apiKey diff files mm = CommitStep.exit 1 := by
  unfold commit_flow
  rw [if_pos h]

/-- Witness for C8 at a whitespace-only staged diff. -/
theorem commit_flow_empty_diff_witness :
    strip (("  \n ").toList) = [] ∧
    commit_flow 360 180 false (("sk-key").toList) (("  \n ").toList) [] []
      = CommitStep.exit 1 :=
  ⟨by decide, commit_flow_empty_diff 360 180 false (("sk-key").toList)
    (("  \n ").toList) [] [] (by decide)⟩

/-- C9 — estimate_cost_usd returns nothing (and in particular raises no
exception) for every usage mapping when the model id is absent from the
pricing table. -/
theorem estimate_cost_usd_unknown_model (table : List (String × List (String × Rat)))
    (model : String) (usage : List (String × Int))
    (h : table.lookup model = none) :
    estimate_cost_usd table model usage = Except.ok none := by
  unfold estimate_cost_usd
  rw [h]

/-- Witness for C9: a model id not present in a one-entry pricing table. -/
theorem estimate_cost_usd_unknown_model_witness :
    ([(("gpt-5-mini" : String), [(("input" : String), (1 : Rat)), ("output", 2)])].lookup
      ("unknown-model") = none) ∧
    estimate_cost_usd [("gpt-5-mini", [("input", 1), ("output", 2)])] ("unknown-model")
      [("prompt_tokens", 1000)] = Except.ok none :=
  ⟨by decide, estimate_cost_usd_unknown_model
    [("gpt-5-mini", [("input", 1), ("output", 2)])] ("unknown-model")
    [("prompt_tokens", 1000)] (by decide)⟩

end Gitai
